import Mathlib

/-
Verification of the `ttl` expiring-map library (package ttl, file map.go,
generic version with per-item TTLs).

The Go code is shallowly embedded: the table `map[K]*mapItem[V]` becomes an
association list of key/item pairs (Go maps have unique keys; where a proof
needs that fact it appears as a `keysNodup` hypothesis), `time.Duration` and
`UnixNano` timestamps become `Int` (both are int64 nanosecond counts in Go),
`time.Now()` becomes an explicit `now : Int` argument threaded to every
operation that calls `touch`, and in-place pointer mutation becomes explicit
state passing.  Observable effects of callbacks (the visits made by `Range`,
the evaluations made by `DeleteFunc`) are returned as traces.
-/

set_option linter.unusedSectionVars false

namespace TTL

/-- Embeds `mapItem[V]`: a stored value, the item's own time-to-live
(`itemTTL time.Duration`), and its `lastAccess` timestamp (`atomic.Int64`,
unix nanoseconds). -/
structure MapItem (V : Type) where
  value : V
  itemTTL : Int
  lastAccess : Int
deriving Repr, DecidableEq

/-- Embeds `(*mapItem).touch()`: store the current time into `lastAccess`. -/
def MapItem.touch {V : Type} (it : MapItem V) (now : Int) : MapItem V :=
  { it with lastAccess := now }

/-- Embeds the `Map[K, V]` struct: the table `m`, the store-wide
`defaultTTL`, the `refreshOnLoad` policy flag, the `closed` atomic flag and
whether the `stop` channel has been closed. -/
structure Map (K V : Type) where
  m : List (K × MapItem V)
  defaultTTL : Int
  refreshOnLoad : Bool
  closed : Bool
  stopClosed : Bool
deriving Repr

/-- Go map lookup `m.m[key]` on the association-list table. -/
def lookupKey {K V : Type} [DecidableEq K] :
    List (K × MapItem V) → K → Option (MapItem V)
  | [], _ => none
  | (k', it) :: rest, k => if k = k' then some it else lookupKey rest k

/-- Go map assignment `m.m[key] = it` for a key already present: replace the
item bound to that key, leaving every other binding untouched. -/
def replaceKey {K V : Type} [DecidableEq K] :
    List (K × MapItem V) → K → MapItem V → List (K × MapItem V)
  | [], _, _ => []
  | (k', it') :: rest, k, it =>
    if k = k' then (k', it) :: rest else (k', it') :: replaceKey rest k it

/-- The keys of the table are pairwise distinct — true of every Go map. -/
abbrev keysNodup {K V : Type} (l : List (K × MapItem V)) : Prop :=
  (l.map Prod.fst).Nodup

/-- Embeds `NewMapContext` minus the background goroutine: the fresh `Map`
value it builds (empty table, given default TTL and refresh policy, open
stop channel).  The capacity hint only pre-sizes the Go map and is not
observable, so it is ignored here. -/
def Map.new (K V : Type) (defaultTTL : Int) (_hint : Int)
    (refreshOnLoad : Bool) : Map K V :=
  { m := [], defaultTTL := defaultTTL, refreshOnLoad := refreshOnLoad,
    closed := false, stopClosed := false }

/-- Embeds one reclaimer tick of `NewMapContext`'s goroutine: with the lock
held and `currentTime` computed once, `maps.DeleteFunc` removes every entry
with `currentTime - item.lastAccess.Load() >= int64(item.itemTTL)`, i.e.
keeps exactly the entries with `now - lastAccess < itemTTL`. -/
def Map.sweep {K V : Type} (mp : Map K V) (now : Int) : Map K V :=
  { mp with m := mp.m.filter fun p => now - p.2.lastAccess < p.2.itemTTL }

/-- Embeds `Store`: if the key is absent, insert a fresh item carrying the
store's default TTL; then (either way) assign the value and `touch`.  The
returned map is the new table state. -/
def Map.store {K V : Type} [DecidableEq K] (mp : Map K V) (key : K)
    (value : V) (now : Int) : Map K V :=
  match lookupKey mp.m key with
  | none =>
    { mp with
      m := mp.m ++ [(key, { value := value, itemTTL := mp.defaultTTL,
                            lastAccess := now })] }
  | some it =>
    { mp with
      m := replaceKey mp.m key (({ it with value := value }).touch now) }

/-- Embeds `StoreWithTTL`: if the key is absent, insert a fresh zero item;
then assign the value, set `itemTTL` to the argument and `touch`. -/
def Map.storeWithTTL {K V : Type} [DecidableEq K] (mp : Map K V) (key : K)
    (value : V) (TTL : Int) (now : Int) : Map K V :=
  match lookupKey mp.m key with
  | none =>
    { mp with
      m := mp.m ++ [(key, { value := value, itemTTL := TTL,
                            lastAccess := now })] }
  | some it =>
    { mp with
      m := replaceKey mp.m key
        (({ it with value := value, itemTTL := TTL }).touch now) }

/-- Embeds `loadImpl`: look the key up; if absent return the zero value of
`V` (modelled by `default`) and `ok = false`; otherwise read the value, and
`touch` only when both `update` and the `refreshOnLoad` policy hold.  The
triple is `(value, ok, new state)`. -/
def Map.loadImpl {K V : Type} [DecidableEq K] [Inhabited V] (mp : Map K V)
    (key : K) (update : Bool) (now : Int) : V × Bool × Map K V :=
  match lookupKey mp.m key with
  | none => (default, false, mp)
  | some it =>
    if !update || !mp.refreshOnLoad then (it.value, true, mp)
    else (it.value, true, { mp with m := replaceKey mp.m key (it.touch now) })

/-- Embeds `Load`: `loadImpl(key, true)`. -/
def Map.load {K V : Type} [DecidableEq K] [Inhabited V] (mp : Map K V)
    (key : K) (now : Int) : V × Bool × Map K V :=
  mp.loadImpl key true now

/-- Embeds `LoadPassive`: `loadImpl(key, false)`. -/
def Map.loadPassive {K V : Type} [DecidableEq K] [Inhabited V] (mp : Map K V)
    (key : K) (now : Int) : V × Bool × Map K V :=
  mp.loadImpl key false now

/-- Embeds `Delete`: remove the key's binding if present. -/
def Map.delete {K V : Type} [DecidableEq K] (mp : Map K V) (key : K) :
    Map K V :=
  { mp with m := mp.m.filter fun p => p.1 ≠ key }

/-- Loop body of `DeleteFunc`: visit each entry once in order, evaluate
`del` on its key and current value, delete the entry when `del` returns
true.  The second component records every evaluation of `del` in visit
order (the observable callback trace). -/
def deleteFuncAux {K V : Type} (del : K → V → Bool) :
    List (K × MapItem V) → List (K × MapItem V) × List (K × V)
  | [] => ([], [])
  | (k, it) :: rest =>
    let r := deleteFuncAux del rest
    if del k it.value then (r.1, (k, it.value) :: r.2)
    else ((k, it) :: r.1, (k, it.value) :: r.2)

/-- Embeds `DeleteFunc`: the new map state together with the trace of
predicate evaluations. -/
def Map.deleteFunc {K V : Type} (mp : Map K V) (del : K → V → Bool) :
    Map K V × List (K × V) :=
  ({ mp with m := (deleteFuncAux del mp.m).1 }, (deleteFuncAux del mp.m).2)

/-- Embeds `Clear`: `clear(m.m)` empties the table. -/
def Map.clear {K V : Type} (mp : Map K V) : Map K V :=
  { mp with m := [] }

/-- Embeds `Length`: `len(m.m)`. -/
def Map.length {K V : Type} (mp : Map K V) : Nat :=
  mp.m.length

/-- Loop body of `Range`: visit entries in order, applying `f` to each key
and value, and stop immediately after the first application that returns
false.  Returns the list of visited (key, value) pairs — the observable
callback trace. -/
def rangeAux {K V : Type} (f : K → V → Bool) :
    List (K × MapItem V) → List (K × V)
  | [] => []
  | (k, it) :: rest =>
    if f k it.value then (k, it.value) :: rangeAux f rest
    else [(k, it.value)]

/-- Embeds `Range`: the trace of visits made by the iteration. -/
def Map.range {K V : Type} (mp : Map K V) (f : K → V → Bool) :
    List (K × V) :=
  rangeAux f mp.m

/-- Embeds `Close`: `if m.closed.CompareAndSwap(false, true) { close(m.stop) }`.
The boolean result records whether this call closed the stop channel (the
action that would panic if performed twice). -/
def Map.close {K V : Type} (mp : Map K V) : Map K V × Bool :=
  if mp.closed then (mp, false)
  else ({ mp with closed := true, stopClosed := true }, true)

/-- Runs `n` successive calls of `Close` (any interleaving of callers and of
the context-cancellation path, which also calls `Close`, serialises into
such a sequence because `CompareAndSwap` is atomic), returning the final
state and the total number of times the stop channel was closed. -/
def closeCount {K V : Type} : Nat → Map K V → Map K V × Nat
  | 0, mp => (mp, 0)
  | n + 1, mp =>
    let r := mp.close
    let s := closeCount n r.1
    (s.1, (if r.2 then 1 else 0) + s.2)

section Lemmas

variable {K V : Type} [DecidableEq K]

theorem lookupKey_replaceKey_self {l : List (K × MapItem V)} {k : K}
    {it0 : MapItem V} (h : lookupKey l k = some it0) (it : MapItem V) :
    lookupKey (replaceKey l k it) k = some it := by
  induction l with
  | nil => simp [lookupKey] at h
  | cons p rest ih =>
    obtain ⟨k', it'⟩ := p
    by_cases hk : k = k'
    · simp [lookupKey, replaceKey, hk]
    · simp [lookupKey, replaceKey, hk] at h ⊢
      exact ih h

theorem lookupKey_append_none {l l2 : List (K × MapItem V)} {k : K}
    (h : lookupKey l k = none) :
    lookupKey (l ++ l2) k = lookupKey l2 k := by
  induction l with
  | nil => simp
  | cons p rest ih =>
    obtain ⟨k', it'⟩ := p
    by_cases hk : k = k'
    · simp [lookupKey, hk] at h
    · simp [lookupKey, hk] at h ⊢
      exact ih h

theorem lookupKey_some_mem {l : List (K × MapItem V)} {k : K}
    {it : MapItem V} (h : lookupKey l k = some it) : (k, it) ∈ l := by
  induction l with
  | nil => simp [lookupKey] at h
  | cons p rest ih =>
    obtain ⟨k', it'⟩ := p
    by_cases hk : k = k'
    · simp [lookupKey, hk] at h
      subst hk; subst h; exact List.mem_cons_self _ _
    · simp [lookupKey, hk] at h
      exact List.mem_cons_of_mem _ (ih h)

theorem lookupKey_eq_none_iff {l : List (K × MapItem V)} {k : K} :
    lookupKey l k = none ↔ ∀ it : MapItem V, (k, it) ∉ l := by
  induction l with
  | nil => simp [lookupKey]
  | cons p rest ih =>
    obtain ⟨k', it'⟩ := p
    by_cases hk : k = k'
    · subst hk
      constructor
      · intro h
        simp [lookupKey] at h
      · intro h
        exact (h it' (List.mem_cons_self _ _)).elim
    · simp [lookupKey, hk, ih]

theorem keysNodup_unique {l : List (K × MapItem V)} (hnd : keysNodup l)
    {k : K} {a b : MapItem V} (ha : (k, a) ∈ l) (hb : (k, b) ∈ l) :
    a = b := by
  induction l with
  | nil => simp at ha
  | cons p rest ih =>
    obtain ⟨k', it'⟩ := p
    have hnd' : k' ∉ rest.map Prod.fst ∧ (rest.map Prod.fst).Nodup := by
      simpa [keysNodup] using hnd
    rcases List.mem_cons.mp ha with ha1 | ha1 <;>
      rcases List.mem_cons.mp hb with hb1 | hb1
    · rw [Prod.mk.injEq] at ha1 hb1
      rw [ha1.2, hb1.2]
    · exfalso
      apply hnd'.1
      rw [Prod.mk.injEq] at ha1
      rw [← ha1.1]
      exact List.mem_map.mpr ⟨(k, b), hb1, rfl⟩
    · exfalso
      apply hnd'.1
      rw [Prod.mk.injEq] at hb1
      rw [← hb1.1]
      exact List.mem_map.mpr ⟨(k, a), ha1, rfl⟩
    · exact ih hnd'.2 ha1 hb1

end Lemmas

section Claims

variable {K V : Type} [DecidableEq K]

/-- C1: on a reclaimer sweep tick with the current time `now` computed once,
an entry survives the sweep if and only if `now − lastAccess < itemTTL`:
every entry with `now − lastAccess ≥ itemTTL` is removed and every entry
with `now − lastAccess < itemTTL` is retained. -/
theorem sweep_survives_iff (mp : Map K V) (now : Int) (k : K)
    (it : MapItem V) :
    (k, it) ∈ (mp.sweep now).m ↔
      (k, it) ∈ mp.m ∧ now - it.lastAccess < it.itemTTL := by
  simp [Map.sweep, List.mem_filter]

theorem store_lookup_absent {mp : Map K V} {key : K}
    (h : lookupKey mp.m key = none) (v : V) (now : Int) :
    lookupKey (mp.store key v now).m key =
      some { value := v, itemTTL := mp.defaultTTL, lastAccess := now } := by
  simp only [Map.store, h]
  rw [lookupKey_append_none h]
  simp [lookupKey]

theorem store_lookup_found {mp : Map K V} {key : K} {it : MapItem V}
    (h : lookupKey mp.m key = some it) (v : V) (now : Int) :
    lookupKey (mp.store key v now).m key =
      some { value := v, itemTTL := it.itemTTL, lastAccess := now } := by
  simp only [Map.store, h]
  exact lookupKey_replaceKey_self h _

/-- A concrete store state used to instantiate theorems with hypotheses:
two keys, key 1 with TTL 10, key 2 with TTL −3, both last accessed at 0. -/
def exampleMap : Map Nat Nat :=
  { m := [(1, { value := 5, itemTTL := 10, lastAccess := 0 }),
          (2, { value := 6, itemTTL := -3, lastAccess := 0 })],
    defaultTTL := 10, refreshOnLoad := true,
    closed := false, stopClosed := false }

/-- C3: a plain `Store` on a key holding a custom TTL replaces the stored
item by one with the new value, the unchanged TTL and the refreshed
timestamp — it updates only value and last-access time, never reverting
the TTL to the store default. -/
theorem store_preserves_custom_ttl (mp : Map K V) (key : K) (it : MapItem V)
    (v : V) (now : Int) (h : lookupKey mp.m key = some it) :
    (mp.store key v now).m =
      replaceKey mp.m key
        { value := v, itemTTL := it.itemTTL, lastAccess := now } ∧
    lookupKey (mp.store key v now).m key =
      some { value := v, itemTTL := it.itemTTL, lastAccess := now } := by
  constructor
  · simp [Map.store, h, MapItem.touch]
  · exact store_lookup_found h v now

/-- Witness for C3 at a concrete input: key 1 of `exampleMap` holds TTL 10;
after `store 1 7 3` the item is value 7, TTL 10, timestamp 3. -/
theorem store_preserves_custom_ttl_witness :
    (exampleMap.store 1 7 3).m =
      replaceKey exampleMap.m 1
        { value := 7, itemTTL := 10, lastAccess := 3 } ∧
    lookupKey (exampleMap.store 1 7 3).m 1 =
      some { value := 7, itemTTL := 10, lastAccess := 3 } :=
  store_preserves_custom_ttl exampleMap 1
    { value := 5, itemTTL := 10, lastAccess := 0 } 7 3 (by decide)

/-- C4: `StoreWithTTL` leaves the key bound to exactly the given value, the
given TTL (overriding the store default and any prior custom TTL) and the
refreshed timestamp, whether or not the key was present. -/
theorem storeWithTTL_sets_ttl (mp : Map K V) (key : K) (v : V)
    (ttl now : Int) :
    lookupKey (mp.storeWithTTL key v ttl now).m key =
      some { value := v, itemTTL := ttl, lastAccess := now } := by
  unfold Map.storeWithTTL
  cases h : lookupKey mp.m key with
  | none =>
    simp only
    rw [lookupKey_append_none h]
    simp [lookupKey]
  | some it =>
    simp only
    exact lookupKey_replaceKey_self h _

/-- C10: an item whose TTL is zero or negative is removed by the first
sweep after its insertion: whenever its timestamp is not in the future,
the sweep's deletion condition `now − lastAccess ≥ itemTTL` holds. -/
theorem ttl_nonpos_swept (mp : Map K V) (key : K) (it : MapItem V)
    (now : Int) (hnd : keysNodup mp.m)
    (h : lookupKey mp.m key = some it) (httl : it.itemTTL ≤ 0)
    (hla : it.lastAccess ≤ now) :
    lookupKey (mp.sweep now).m key = none := by
  rw [Map.sweep, lookupKey_eq_none_iff]
  intro it' hmem
  rw [List.mem_filter] at hmem
  have heq : it' = it :=
    keysNodup_unique hnd hmem.1 (lookupKey_some_mem h)
  subst heq
  have hlt : now - it'.lastAccess < it'.itemTTL := by
    simpa using hmem.2
  omega

/-- Witness for C10 at a concrete input: key 2 of `exampleMap` has TTL −3
and timestamp 0; the sweep at time 5 removes it. -/
theorem ttl_nonpos_swept_witness :
    lookupKey (exampleMap.sweep 5).m 2 = none :=
  ttl_nonpos_swept exampleMap 2
    { value := 6, itemTTL := -3, lastAccess := 0 } 5
    (by decide) (by decide) (by decide) (by decide)

variable [Inhabited V]

theorem loadImpl_found {mp : Map K V} {key : K} {it : MapItem V}
    (h : lookupKey mp.m key = some it) (u : Bool) (now : Int) :
    (mp.loadImpl key u now).1 = it.value ∧
    (mp.loadImpl key u now).2.1 = true := by
  simp only [Map.loadImpl, h]
  split <;> simp

theorem load_after_store (mp : Map K V) (key : K) (v : V) (ts now : Int) :
    ((mp.store key v ts).load key now).1 = v ∧
    ((mp.store key v ts).load key now).2.1 = true := by
  cases h : lookupKey mp.m key with
  | none =>
    have := loadImpl_found (store_lookup_absent h v ts) true now
    simpa [Map.load] using this
  | some it =>
    have := loadImpl_found (store_lookup_found h v ts) true now
    simpa [Map.load] using this

/-- Applies a sequence of `Store` calls on one key (each pair is a value
and the time of that call), in order. -/
def applyStores (mp : Map K V) (key : K) (ops : List (V × Int)) : Map K V :=
  ops.foldl (fun acc p => acc.store key p.1 p.2) mp

/-- C2: after any non-empty sequence of `Store` calls on a key (with no
intervening delete, clear or sweep), `Load` of that key returns exactly the
value of the most recent `Store` together with `found = true`; in
particular `Store` on a present key replaces the stored value. -/
theorem load_returns_last_store (mp : Map K V) (key : K)
    (ops : List (V × Int)) (v : V) (t0 now : Int)
    (h : ops.getLast? = some (v, t0)) :
    ((applyStores mp key ops).load key now).1 = v ∧
    ((applyStores mp key ops).load key now).2.1 = true := by
  induction ops generalizing mp with
  | nil => simp at h
  | cons p rest ih =>
    cases rest with
    | nil =>
      have hp : p = (v, t0) := by simpa using h
      subst hp
      simpa [applyStores] using load_after_store mp key v t0 now
    | cons q rs =>
      rw [List.getLast?_cons_cons] at h
      simpa [applyStores] using ih (mp.store key p.1 p.2) h

/-- Witness for C2 at a concrete input: storing 4 then 9 under key 7 of a
fresh map, `Load` returns 9 with `found = true`. -/
theorem load_returns_last_store_witness :
    ((applyStores (Map.new Nat Nat 10 0 true) 7 [(4, 1), (9, 2)]).load
        7 3).1 = 9 ∧
    ((applyStores (Map.new Nat Nat 10 0 true) 7 [(4, 1), (9, 2)]).load
        7 3).2.1 = true :=
  load_returns_last_store (Map.new Nat Nat 10 0 true) 7 [(4, 1), (9, 2)]
    9 2 3 (by decide)

theorem closeCount_closed {mp : Map K V} (h : mp.closed = true) :
    ∀ n, closeCount n mp = (mp, 0) := by
  intro n
  induction n with
  | zero => rfl
  | succ n ih =>
    simp [closeCount, Map.close, h, ih]

/-- C5: `Close` is idempotent.  Over any sequence of `n + 1` calls (all
callers and the context-cancellation path serialise into such a sequence,
`CompareAndSwap` being atomic), starting from an open map: the `closed`
flag ends true, the stop channel ends closed, the stop channel is closed
exactly once across the whole sequence (so nothing double-closes or
panics), and every call after the first is a no-op. -/
theorem close_idempotent (mp : Map K V) (n : Nat)
    (h : mp.closed = false) :
    (closeCount (n + 1) mp).1.closed = true ∧
    (closeCount (n + 1) mp).1.stopClosed = true ∧
    (closeCount (n + 1) mp).2 = 1 ∧
    closeCount n (mp.close).1 = ((mp.close).1, 0) := by
  have hstep : mp.close =
      ({ mp with closed := true, stopClosed := true }, true) := by
    simp [Map.close, h]
  have hrest :
      closeCount n ({ mp with closed := true, stopClosed := true } : Map K V)
        = ({ mp with closed := true, stopClosed := true }, 0) :=
    closeCount_closed rfl n
  refine ⟨?_, ?_, ?_, ?_⟩ <;> simp [closeCount, hstep, hrest]

/-- Witness for C5 at a concrete input: three `Close` calls on the open
`exampleMap` end closed, close the stop channel exactly once, and the two
later calls are no-ops. -/
theorem close_idempotent_witness :
    (closeCount (2 + 1) exampleMap).1.closed = true ∧
    (closeCount (2 + 1) exampleMap).1.stopClosed = true ∧
    (closeCount (2 + 1) exampleMap).2 = 1 ∧
    closeCount 2 (exampleMap.close).1 = ((exampleMap.close).1, 0) :=
  close_idempotent exampleMap 2 (by decide)

/-- C6: for a key not present in the table, `Load` and `LoadPassive` both
return `found = false` together with the zero value of the value type
(modelled by `default`), leave the map unchanged, and signal absence by the
flag alone — never by an error or panic. -/
theorem load_absent_returns_zero (mp : Map K V) (key : K) (now : Int)
    (h : lookupKey mp.m key = none) :
    mp.load key now = ((default : V), false, mp) ∧
    mp.loadPassive key now = ((default : V), false, mp) := by
  constructor <;> simp [Map.load, Map.loadPassive, Map.loadImpl, h]

/-- Witness for C6 at a concrete input: key 3 is absent from `exampleMap`,
so `Load` and `LoadPassive` return `(0, false)` and change nothing. -/
theorem load_absent_returns_zero_witness :
    exampleMap.load 3 4 = ((default : Nat), false, exampleMap) ∧
    exampleMap.loadPassive 3 4 = ((default : Nat), false, exampleMap) :=
  load_absent_returns_zero exampleMap 3 4 (by decide)

/-- C7: for a key present in the table, `LoadPassive` returns the same
value and `found` flag as `Load` but never touches the timestamp whatever
the policy; `Load` leaves the map unchanged when `refreshOnLoad` is off and
updates exactly the item's timestamp when it is on. -/
theorem loadPassive_never_touches (mp : Map K V) (key : K)
    (it : MapItem V) (now : Int) (h : lookupKey mp.m key = some it) :
    mp.loadPassive key now = (it.value, true, mp) ∧
    (mp.load key now).1 = it.value ∧ (mp.load key now).2.1 = true ∧
    (mp.refreshOnLoad = false → mp.load key now = (it.value, true, mp)) ∧
    (mp.refreshOnLoad = true →
      mp.load key now =
        (it.value, true,
          { mp with m := replaceKey mp.m key (it.touch now) })) := by
  refine ⟨?_, (loadImpl_found h true now).1, (loadImpl_found h true now).2,
    ?_, ?_⟩
  · simp [Map.loadPassive, Map.loadImpl, h]
  · intro hr
    simp [Map.load, Map.loadImpl, h, hr]
  · intro hr
    simp [Map.load, Map.loadImpl, h, hr]

/-- Witness for C7 at a concrete input: key 1 of `exampleMap` (policy on):
`LoadPassive` at time 4 returns `(5, true)` and changes nothing, `Load`
returns `(5, true)` and refreshes the timestamp to 4. -/
theorem loadPassive_never_touches_witness :
    exampleMap.loadPassive 1 4 =
      (5, true, exampleMap) ∧
    (exampleMap.load 1 4).1 = 5 ∧ (exampleMap.load 1 4).2.1 = true ∧
    (exampleMap.refreshOnLoad = false →
      exampleMap.load 1 4 = (5, true, exampleMap)) ∧
    (exampleMap.refreshOnLoad = true →
      exampleMap.load 1 4 =
        (5, true,
          { exampleMap with
            m := replaceKey exampleMap.m 1
              (MapItem.touch { value := 5, itemTTL := 10, lastAccess := 0 }
                4) })) :=
  loadPassive_never_touches exampleMap 1
    { value := 5, itemTTL := 10, lastAccess := 0 } 4 (by decide)

theorem deleteFuncAux_fst (del : K → V → Bool) (l : List (K × MapItem V)) :
    (deleteFuncAux del l).1 = l.filter fun p => !del p.1 p.2.value := by
  induction l with
  | nil => rfl
  | cons p rest ih =>
    obtain ⟨k, it⟩ := p
    by_cases hd : del k it.value <;>
      simp [deleteFuncAux, List.filter, hd, ih]

theorem deleteFuncAux_snd (del : K → V → Bool) (l : List (K × MapItem V)) :
    (deleteFuncAux del l).2 = l.map fun p => (p.1, p.2.value) := by
  induction l with
  | nil => rfl
  | cons p rest ih =>
    obtain ⟨k, it⟩ := p
    by_cases hd : del k it.value <;> simp [deleteFuncAux, hd, ih]

/-- C8: `DeleteFunc` keeps exactly the entries on which the predicate
returns false, each kept entry completely untouched (same item: value, TTL
and timestamp), and its evaluation trace visits every entry exactly once
with that entry's current key and value; `Clear` empties the table, so
`Length` is 0 immediately after. -/
theorem deleteFunc_exact (mp : Map K V) (del : K → V → Bool) :
    (mp.deleteFunc del).1.m = (mp.m.filter fun p => !del p.1 p.2.value) ∧
    (mp.deleteFunc del).2 = (mp.m.map fun p => (p.1, p.2.value)) ∧
    (Map.clear mp).length = 0 :=
  ⟨deleteFuncAux_fst del mp.m, deleteFuncAux_snd del mp.m, rfl⟩

theorem rangeAux_take_eq (f : K → V → Bool) (l : List (K × MapItem V)) :
    rangeAux f l =
      (l.map fun p => (p.1, p.2.value)).take (rangeAux f l).length := by
  induction l with
  | nil => rfl
  | cons p rest ih =>
    obtain ⟨k, it⟩ := p
    by_cases hf : f k it.value
    · simp only [rangeAux, hf, if_pos, List.map_cons, List.length_cons,
        List.take_succ_cons]
      exact congrArg _ ih
    · simp [rangeAux, hf]

theorem rangeAux_dropLast_true (f : K → V → Bool)
    (l : List (K × MapItem V)) :
    ∀ q ∈ (rangeAux f l).dropLast, f q.1 q.2 = true := by
  induction l with
  | nil => intro q hq; simp [rangeAux] at hq
  | cons p rest ih =>
    obtain ⟨k, it⟩ := p
    by_cases hf : f k it.value
    · intro q hq
      rw [rangeAux, if_pos hf] at hq
      cases hvs : rangeAux f rest with
      | nil => rw [hvs] at hq; simp at hq
      | cons c cs =>
        rw [hvs, List.dropLast_cons₂, List.mem_cons] at hq
        rcases hq with hq | hq
        · subst hq; exact hf
        · exact ih q (hvs ▸ hq)
    · intro q hq
      rw [rangeAux, if_neg hf] at hq
      simp at hq

theorem rangeAux_last (f : K → V → Bool) (l : List (K × MapItem V)) :
    rangeAux f l = (l.map fun p => (p.1, p.2.value)) ∨
      ∃ q, (rangeAux f l).getLast? = some q ∧ f q.1 q.2 = false := by
  induction l with
  | nil => exact Or.inl rfl
  | cons p rest ih =>
    obtain ⟨k, it⟩ := p
    by_cases hf : f k it.value
    · rcases ih with heq | ⟨q, hlast, hfq⟩
      · exact Or.inl (by simp [rangeAux, hf, heq])
      · refine Or.inr ⟨q, ?_, hfq⟩
        rw [rangeAux, if_pos hf]
        cases hvs : rangeAux f rest with
        | nil => rw [hvs] at hlast; simp at hlast
        | cons c cs =>
          rw [List.getLast?_cons_cons, ← hvs]
          exact hlast
    · refine Or.inr ⟨(k, it.value), ?_, by simpa using hf⟩
      rw [rangeAux, if_neg hf]
      rfl

/-- C9: `Range` visits entries at most once each, in table order: the visit
trace is a prefix of the table's (key, value) projection, every visit before
the last returned true (so iteration stops immediately after the first
false), and either the whole table was visited or the last visit is the one
that returned false — hence a visitor returning false on its N-th visit is
invoked exactly N times. -/
theorem range_stops_after_false (mp : Map K V) (f : K → V → Bool) :
    mp.range f =
      (mp.m.map fun p => (p.1, p.2.value)).take (mp.range f).length ∧
    (∀ q ∈ (mp.range f).dropLast, f q.1 q.2 = true) ∧
    (mp.range f = (mp.m.map fun p => (p.1, p.2.value)) ∨
      ∃ q, (mp.range f).getLast? = some q ∧ f q.1 q.2 = false) :=
  ⟨rangeAux_take_eq f mp.m, rangeAux_dropLast_true f mp.m,
    rangeAux_last f mp.m⟩

end Claims

end TTL
